import Mathlib

/-!
Verification of the chunking core of the Turkish text-to-speech data
pipeline (`src/data_scraper/services/chunk_service.py`, with the policy
constants from `src/data_scraper/config/settings.py`).

Times (seconds, Python floats in the source) are modelled as rationals.
Python's `str.strip()` is modelled by `strip` and `str.endswith(tuple)` by
`endsWithAny`, both running on the character list of the string (Lean's
built-in `String.trim`/`String.endsWith` are byte-position based and do not
evaluate in the kernel; these versions have the same meaning).  The Python
field `end` is called `stop` here because `end` is a Lean keyword.

The audio waveform (a pydub `AudioSegment`) is modelled as a list of
millisecond samples, `AudioSegment` slicing `audio[a:b]` as `pySlice`
(Python slice semantics: negative indices count from the end, out-of-range
indices clamp), and `int(t * 1000)` as `msec` (`pyInt` is Python `int()`,
truncation toward zero).

File-system effects are modelled by an event trace: `seg.export(wav_file)`
emits `Ev.writeWav`, the text write emits `Ev.writeTxt`, and the
`chunks_mapping.json` dump emits `Ev.writeManifest`.  An `Oracle` says
which per-chunk writes succeed; a failed write raises, which aborts
`chunk_audio` with the events performed so far and no return value
(`Option.none`), exactly as an uncaught Python exception would.  The
directory-creation calls (`os.makedirs(..., exist_ok=True)`) and the JSON
transcript load are not modelled; the word list is the input.
-/

namespace ChunkService

/-- One timestamped word of the transcript (`{"text": ..., "start": ..., "end": ...}`). -/
structure Word where
  text : String
  start : ℚ
  stop : ℚ
deriving DecidableEq, Repr

/-- The duration/punctuation policy (the `Config` class in `settings.py`). -/
structure Policy where
  min_len : ℚ
  max_len : ℚ
  punct : List String
deriving DecidableEq, Repr

/-- The constants of the `Config` class in `src/data_scraper/config/settings.py`:
`MIN_LEN = 4.0`, `MAX_LEN = 17.0`, `PUNCT = (".", "?", "!")`. -/
def Config : Policy :=
  { min_len := 4, max_len := 17, punct := [".", "?", "!"] }

/-- One emitted chunk record, as appended to `transcripts` in `save_chunk`. -/
structure Chunk where
  id : ℕ
  start : ℚ
  stop : ℚ
  text : String
deriving DecidableEq, Repr

/-- Model of Python `s.strip()`: drop whitespace from both ends of the string. -/
def strip (s : String) : String :=
  String.mk ((s.data.dropWhile Char.isWhitespace).reverse.dropWhile Char.isWhitespace).reverse

/-- Model of Python `s.endswith(ps)` for a tuple `ps` of candidate suffixes. -/
def endsWithAny (s : String) (ps : List String) : Bool :=
  ps.any fun p => p.data.isSuffixOf s.data

/-! ### The segmentation planner (the pure part of `chunk_audio`) -/

/-- The mutable planner state of `chunk_audio`: the `transcripts` list, the
`current_text` accumulation buffer, the `chunk_start` cursor and the
`chunk_id` counter. -/
structure PlanState where
  transcripts : List Chunk
  current_text : List String
  chunk_start : ℚ
  chunk_id : ℕ
deriving DecidableEq, Repr

/-- The planning part of `save_chunk(end_time)`: if the buffer is empty do
nothing, else emit `{id, start, end, text}` with
`text = "".join(current_text).strip()`, advance the cursor to `end_time`,
bump the id and clear the buffer. -/
def save_chunk (st : PlanState) (end_time : ℚ) : PlanState :=
  if st.current_text = [] then st
  else
    { transcripts := st.transcripts ++
        [{ id := st.chunk_id, start := st.chunk_start, stop := end_time,
           text := strip (String.join st.current_text) }],
      current_text := [],
      chunk_start := end_time,
      chunk_id := st.chunk_id + 1 }

/-- The body of the `for w in words` loop of `chunk_audio`: append the word
text, compute `duration = w["end"] - chunk_start` and
`has_punct = w["text"].strip().endswith(Config.PUNCT)`, then close the
chunk when `Config.MIN_LEN <= duration <= Config.MAX_LEN and has_punct`,
or (`elif`) when `duration > Config.MAX_LEN`. -/
def step (pol : Policy) (st : PlanState) (w : Word) : PlanState :=
  let st' : PlanState := { st with current_text := st.current_text ++ [w.text] }
  let duration : ℚ := w.stop - st.chunk_start
  let has_punct : Bool := endsWithAny (strip w.text) pol.punct
  if pol.min_len ≤ duration ∧ duration ≤ pol.max_len ∧ has_punct = true then
    save_chunk st' w.stop
  else if pol.max_len < duration then
    save_chunk st' w.stop
  else
    st'

/-- The whole word loop, as a left fold of `step`. -/
def planRun (pol : Policy) (ws : List Word) (st : PlanState) : PlanState :=
  ws.foldl (step pol) st

/-- The initial planner state: empty `transcripts` and buffer,
`chunk_start = words[0]["start"]`, `chunk_id = 1`. -/
def initState (w : Word) : PlanState :=
  { transcripts := [], current_text := [], chunk_start := w.start, chunk_id := 1 }

/-- The boundary-planning part of `chunk_audio` on a non-empty word list
`w :: ws`: initialise the state, run the loop, then (`if current_text:`)
flush the trailing buffer at `words[-1]["end"]`. -/
def planNE (pol : Policy) (w : Word) (ws : List Word) : List Chunk :=
  let st := planRun pol (w :: ws) (initState w)
  let st' := if st.current_text ≠ [] then save_chunk st ((ws.getLastD w).stop) else st
  st'.transcripts

/-- The planner on an arbitrary word list: an empty `words` raises
`IndexError` at `words[0]["start"]` in the source, modelled as `none`. -/
def plan (pol : Policy) : List Word → Option (List Chunk)
  | [] => none
  | w :: ws => some (planNE pol w ws)

/-! ### The materializer (audio slicing, file writes, manifest) -/

/-- Model of Python `int()` applied to an exact number: truncation toward zero. -/
def pyInt (q : ℚ) : ℤ :=
  if q < 0 then ⌈q⌉ else ⌊q⌋

/-- Conversion `int(t * 1000)` of seconds to pydub milliseconds, as in `save_chunk`. -/
def msec (t : ℚ) : ℤ :=
  pyInt (t * 1000)

/-- Resolve one Python slice index against a sequence of length `n`:
negative indices count from the end, and everything clamps to `[0, n]`. -/
def pySliceIdx (n : ℕ) (i : ℤ) : ℕ :=
  if i < 0 then n - (-i).toNat else min i.toNat n

/-- Model of Python `l[a:b]` (pydub millisecond slicing of an `AudioSegment`). -/
def pySlice (l : List ℕ) (a b : ℤ) : List ℕ :=
  (l.take (pySliceIdx l.length b)).drop (pySliceIdx l.length a)

/-- The path `os.path.join(chunks_wav_dir, "chunk_" + str(id) + ".wav")`. -/
def wavPath (dir : String) (id : ℕ) : String :=
  dir ++ "/chunk_" ++ toString id ++ ".wav"

/-- One observable file-system write performed by `chunk_audio`. -/
inductive Ev where
  | writeWav (id : ℕ) (data : List ℕ)
  | writeTxt (id : ℕ) (text : String)
  | writeManifest (transcript : List Chunk) (audio : List (ℕ × String))
deriving DecidableEq, Repr

/-- Whether an event is the manifest dump (`chunks_mapping.json`). -/
def Ev.isManifest : Ev → Bool
  | .writeManifest _ _ => true
  | _ => false

/-- The chunk ids of the per-chunk writes in a trace. -/
def traceIds : List Ev → List ℕ
  | [] => []
  | Ev.writeWav i _ :: tr => i :: traceIds tr
  | Ev.writeTxt i _ :: tr => i :: traceIds tr
  | _ :: tr => traceIds tr

/-- The audio payloads of the `writeWav` events of a trace, in order. -/
def wavDatas : List Ev → List (List ℕ)
  | [] => []
  | Ev.writeWav _ d :: tr => d :: wavDatas tr
  | _ :: tr => wavDatas tr

/-- Which per-chunk writes succeed.  `wavOk i` is whether
`seg.export(wav_file)` for chunk `i` succeeds, `txtOk i` whether the text
write for chunk `i` succeeds; a `false` models a raised `OSError`. -/
structure Oracle where
  wavOk : ℕ → Bool
  txtOk : ℕ → Bool

/-- The oracle of a run with no I/O failure. -/
def allOk : Oracle :=
  { wavOk := fun _ => true, txtOk := fun _ => true }

/-- The full mutable state of `chunk_audio`: the planner state plus the
`audios` id-to-path mapping and the trace of writes performed so far. -/
structure RunState where
  transcripts : List Chunk
  audios : List (ℕ × String)
  current_text : List String
  chunk_start : ℚ
  chunk_id : ℕ
  trace : List Ev

/-- The function `save_chunk(end_time)` with its I/O, in source order: guard on the
empty buffer, append the transcript record, slice
`audio[int(chunk_start*1000):int(end_time*1000)]`, export the wav (may
fail), write the text (may fail), record `audios[chunk_id] = wav_file`,
then advance `chunk_id`, `chunk_start` and clear the buffer.  The `Bool`
is `false` when a write raised; the state then keeps the events actually
performed before the exception. -/
def runSave (oracle : Oracle) (audio : List ℕ) (wav_dir : String)
    (st : RunState) (end_time : ℚ) : RunState × Bool :=
  if st.current_text = [] then (st, true)
  else
    let text := strip (String.join st.current_text)
    let ts := st.transcripts ++
      [{ id := st.chunk_id, start := st.chunk_start, stop := end_time, text := text }]
    let seg := pySlice audio (msec st.chunk_start) (msec end_time)
    if oracle.wavOk st.chunk_id then
      let tr1 := st.trace ++ [Ev.writeWav st.chunk_id seg]
      if oracle.txtOk st.chunk_id then
        ({ transcripts := ts,
           audios := st.audios ++ [(st.chunk_id, wavPath wav_dir st.chunk_id)],
           current_text := [],
           chunk_start := end_time,
           chunk_id := st.chunk_id + 1,
           trace := tr1 ++ [Ev.writeTxt st.chunk_id text] }, true)
      else
        ({ st with transcripts := ts, trace := tr1 }, false)
    else
      ({ st with transcripts := ts }, false)

/-- The `for w in words` loop of `chunk_audio` with its I/O; an exception
inside `save_chunk` propagates, stopping the loop. -/
def runLoop (pol : Policy) (oracle : Oracle) (audio : List ℕ) (wav_dir : String) :
    List Word → RunState → RunState × Bool
  | [], st => (st, true)
  | w :: ws, st =>
    let st' : RunState := { st with current_text := st.current_text ++ [w.text] }
    let duration : ℚ := w.stop - st.chunk_start
    let has_punct : Bool := endsWithAny (strip w.text) pol.punct
    if pol.min_len ≤ duration ∧ duration ≤ pol.max_len ∧ has_punct = true then
      match runSave oracle audio wav_dir st' w.stop with
      | (st2, true) => runLoop pol oracle audio wav_dir ws st2
      | (st2, false) => (st2, false)
    else if pol.max_len < duration then
      match runSave oracle audio wav_dir st' w.stop with
      | (st2, true) => runLoop pol oracle audio wav_dir ws st2
      | (st2, false) => (st2, false)
    else
      runLoop pol oracle audio wav_dir ws st'

/-- The returned record `{"transcript": transcripts, "audio": audios}`,
also dumped to `chunks_mapping.json`. -/
structure Manifest where
  transcript : List Chunk
  audio : List (ℕ × String)
deriving DecidableEq, Repr

/-- The method `ChunkService.chunk_audio`, observed through its write trace and return
value.  An empty word list raises `IndexError` at `words[0]["start"]`
(no events, no value).  Otherwise the loop runs; after it, the trailing
buffer is flushed at `words[-1]["end"]` (`runSave` re-checks the
`if current_text:` guard), and only then is `chunks_mapping.json` written
and the manifest returned.  A raised write error anywhere aborts with the
trace so far and no manifest. -/
def chunk_audio (pol : Policy) (oracle : Oracle) (audio : List ℕ)
    (words : List Word) (wav_dir : String) : List Ev × Option Manifest :=
  match words with
  | [] => ([], none)
  | w :: ws =>
    let st0 : RunState :=
      { transcripts := [], audios := [], current_text := [],
        chunk_start := w.start, chunk_id := 1, trace := [] }
    let r := runLoop pol oracle audio wav_dir (w :: ws) st0
    if r.2 = false then (r.1.trace, none)
    else
      let r2 := runSave oracle audio wav_dir r.1 ((ws.getLastD w).stop)
      if r2.2 = false then (r2.1.trace, none)
      else
        (r2.1.trace ++ [Ev.writeManifest r2.1.transcripts r2.1.audios],
         some { transcript := r2.1.transcripts, audio := r2.1.audios })

/-! ### Tiling of chunk boundaries -/

/-- Tiling predicate: `Tiles s0 cs e` says the `[start, stop)` ranges of `cs` tile `[s0, e]` left
to right with no gaps and no overlaps: the first chunk starts at `s0`, each
later chunk starts where the previous one stopped, and the last chunk stops
at `e` (for `cs = []` it degenerates to `e = s0`). -/
def Tiles (s0 : ℚ) : List Chunk → ℚ → Prop
  | [], e => e = s0
  | c :: cs, e => c.start = s0 ∧ Tiles c.stop cs e

/-- A chunk was force-closed on overflow within the accepted spillover
margin: its duration exceeds `max_len`, and it ends exactly at the end of
some input word whose own span accounts for the whole excess. -/
def GoodOverflow (pol : Policy) (full : List Word) (c : Chunk) : Prop :=
  pol.max_len < c.stop - c.start ∧
  ∃ v ∈ full, c.stop = v.stop ∧ c.stop - c.start ≤ pol.max_len + (v.stop - v.start)

/-- An oracle whose only failure is the wav write of chunk 1 (used for the
C7 scenario). -/
def badOracle : Oracle :=
  { wavOk := fun i => i != 1, txtOk := fun _ => true }

theorem Tiles_append {s0 cur e : ℚ} {n : ℕ} {t : String} :
    ∀ {cs : List Chunk}, Tiles s0 cs cur →
      Tiles s0 (cs ++ [{ id := n, start := cur, stop := e, text := t }]) e := by
  intro cs
  induction cs generalizing s0 with
  | nil =>
    intro h
    simp only [Tiles] at h
    simp only [List.nil_append, Tiles]
    exact ⟨h, trivial⟩
  | cons c cs ih =>
    intro h
    exact ⟨h.1, ih h.2⟩

theorem save_chunk_eq_of_ne (st : PlanState) (e : ℚ) (h : st.current_text ≠ []) :
    save_chunk st e =
      { transcripts := st.transcripts ++
          [{ id := st.chunk_id, start := st.chunk_start, stop := e,
             text := strip (String.join st.current_text) }],
        current_text := [], chunk_start := e, chunk_id := st.chunk_id + 1 } := by
  unfold save_chunk
  rw [if_neg h]

theorem step_cases (pol : Policy) (st : PlanState) (w : Word) :
    (step pol st w = save_chunk { st with current_text := st.current_text ++ [w.text] } w.stop ∧
      (pol.min_len ≤ w.stop - st.chunk_start ∧ w.stop - st.chunk_start ≤ pol.max_len ∧
          endsWithAny (strip w.text) pol.punct = true ∨
        pol.max_len < w.stop - st.chunk_start)) ∨
    (step pol st w = { st with current_text := st.current_text ++ [w.text] } ∧
      ¬ pol.max_len < w.stop - st.chunk_start ∧
      ¬(pol.min_len ≤ w.stop - st.chunk_start ∧ w.stop - st.chunk_start ≤ pol.max_len ∧
          endsWithAny (strip w.text) pol.punct = true)) := by
  simp only [step]
  split_ifs with h1 h2
  · exact Or.inl ⟨rfl, Or.inl h1⟩
  · exact Or.inl ⟨rfl, Or.inr h2⟩
  · exact Or.inr ⟨rfl, h2, h1⟩

theorem tiles_step (pol : Policy) {s0 : ℚ} (st : PlanState) (w : Word)
    (h : Tiles s0 st.transcripts st.chunk_start) :
    Tiles s0 (step pol st w).transcripts (step pol st w).chunk_start := by
  rcases step_cases pol st w with ⟨heq, -⟩ | ⟨heq, -⟩
  · rw [heq, save_chunk_eq_of_ne _ _ (by simp)]
    exact Tiles_append h
  · rw [heq]
    exact h

theorem tiles_run (pol : Policy) {s0 : ℚ} :
    ∀ (ws : List Word) (st : PlanState),
      Tiles s0 st.transcripts st.chunk_start →
      Tiles s0 (planRun pol ws st).transcripts (planRun pol ws st).chunk_start := by
  intro ws
  induction ws with
  | nil => intro st h; exact h
  | cons w ws ih => intro st h; exact ih _ (tiles_step pol st w h)

theorem step_buffer (pol : Policy) (st : PlanState) (w : Word)
    (h : (step pol st w).current_text = []) :
    (step pol st w).chunk_start = w.stop ∧ (step pol st w).transcripts ≠ [] := by
  rcases step_cases pol st w with ⟨heq, -⟩ | ⟨heq, -⟩
  · rw [heq, save_chunk_eq_of_ne _ _ (by simp)]
    exact ⟨rfl, by simp⟩
  · rw [heq] at h
    simp at h

theorem run_last (pol : Policy) :
    ∀ (ws : List Word) (w : Word) (st : PlanState),
      (planRun pol (w :: ws) st).current_text = [] →
      (planRun pol (w :: ws) st).chunk_start = (ws.getLastD w).stop ∧
        (planRun pol (w :: ws) st).transcripts ≠ [] := by
  intro ws
  induction ws with
  | nil =>
    intro w st h
    exact step_buffer pol st w h
  | cons v ws ih =>
    intro w st h
    have hr : planRun pol (w :: v :: ws) st = planRun pol (v :: ws) (step pol st w) := rfl
    rw [hr] at h ⊢
    rw [List.getLastD_cons]
    exact ih v (step pol st w) h

/-- C1. For every non-empty word sequence satisfying the data-model
invariants (each word has `start ≤ end`, words ordered non-decreasing by
`start`), the chunks emitted by `chunk_audio` exactly tile
`[words[0].start, words[-1].end]`: chunk 1 starts at `words[0].start`,
every later chunk starts where the previous one stopped (no gap, no
overlap), and the final chunk stops at `words[-1].end`. -/
theorem c1_chunks_tile (pol : Policy) (w : Word) (ws : List Word)
    (hvalid : ∀ v ∈ w :: ws, v.start ≤ v.stop)
    (hsorted : (w :: ws).Chain' (fun a b => a.start ≤ b.start)) :
    planNE pol w ws ≠ [] ∧
      Tiles w.start (planNE pol w ws) ((ws.getLastD w).stop) := by
  unfold planNE
  have h0 : Tiles w.start (initState w).transcripts (initState w).chunk_start := rfl
  have hT := tiles_run pol (w :: ws) (initState w) h0
  by_cases hbuf : (planRun pol (w :: ws) (initState w)).current_text = []
  · simp only [hbuf, ne_eq, not_true_eq_false, if_neg, if_false, not_false_eq_true]
    obtain ⟨hcs, hne⟩ := run_last pol ws w (initState w) hbuf
    rw [hcs] at hT
    exact ⟨hne, hT⟩
  · simp only [ne_eq, hbuf, not_false_eq_true, if_true, if_pos]
    unfold save_chunk
    rw [if_neg hbuf]
    exact ⟨by simp, Tiles_append hT⟩

/-- Witness for C1: Scenario A input; the two hypotheses hold and the
emitted chunks tile `[0, 4.5]`. -/
theorem c1_chunks_tile_witness :
    planNE Config ⟨"I", 0, 1⟩ [⟨"am.", 1, 4.5⟩] ≠ [] ∧
      Tiles 0 (planNE Config ⟨"I", 0, 1⟩ [⟨"am.", 1, 4.5⟩]) 4.5 :=
  c1_chunks_tile Config ⟨"I", 0, 1⟩ [⟨"am.", 1, 4.5⟩]
    (by intro v hv
        simp only [List.mem_cons, List.not_mem_nil, or_false] at hv
        rcases hv with rfl | rfl <;> norm_num)
    (by constructor <;> norm_num)


/-! ### Concrete string evaluations shared by scenario proofs -/

theorem ends_am : endsWithAny (strip "am.") [".", "?", "!"] = true := by decide
theorem ends_I : endsWithAny (strip "I") [".", "?", "!"] = false := by decide
theorem ends_hello : endsWithAny (strip "hello") [".", "?", "!"] = false := by decide
theorem ends_aDot : endsWithAny (strip "a.") [".", "?", "!"] = true := by decide
theorem ends_b : endsWithAny (strip "b") [".", "?", "!"] = false := by decide
theorem strip_join_I_am : strip (String.join ["I", "am."]) = "Iam." := by decide
theorem strip_join_hello : strip (String.join ["hello"]) = "hello" := by decide
theorem strip_join_aDot : strip (String.join ["a."]) = "a." := by decide
theorem strip_join_b : strip (String.join ["b"]) = "b" := by decide

/-! ### C2: the minimum-length floor -/

theorem minlen_run (pol : Policy) (hpol : pol.min_len ≤ pol.max_len) :
    ∀ (ws : List Word) (st : PlanState),
      (∀ c ∈ st.transcripts, pol.min_len ≤ c.stop - c.start) →
      ∀ c ∈ (planRun pol ws st).transcripts, pol.min_len ≤ c.stop - c.start := by
  intro ws
  induction ws with
  | nil => intro st h; exact h
  | cons w ws ih =>
    intro st h
    have hr : planRun pol (w :: ws) st = planRun pol ws (step pol st w) := rfl
    rw [hr]
    apply ih
    rcases step_cases pol st w with ⟨heq, hcond⟩ | ⟨heq, -⟩
    · rw [heq, save_chunk_eq_of_ne _ _ (by simp)]
      intro c hc
      rcases List.mem_append.1 hc with hc | hc
      · exact h c hc
      · simp only [List.mem_singleton] at hc
        subst hc
        rcases hcond with h1 | h2
        · exact h1.1
        · exact le_of_lt (lt_of_le_of_lt hpol h2)
    · rw [heq]
      exact h

/-- C2. For every word sequence and every policy with
`min_len ≤ max_len`, every chunk emitted by `chunk_audio` except possibly
the last one has duration `end - start ≥ min_len`; in particular no chunk
is ever closed on terminal punctuation while the in-progress duration is
still below `min_len`. -/
theorem c2_min_duration (pol : Policy) (hpol : pol.min_len ≤ pol.max_len)
    (w : Word) (ws : List Word) :
    ∀ c ∈ (planNE pol w ws).dropLast, pol.min_len ≤ c.stop - c.start := by
  have hloop := minlen_run pol hpol (w :: ws) (initState w) (by intro c hc; simp [initState] at hc)
  simp only [planNE]
  by_cases hbuf : (planRun pol (w :: ws) (initState w)).current_text = []
  · rw [if_neg (by simpa using hbuf)]
    intro c hc
    exact hloop c ((List.dropLast_sublist _).subset hc)
  · rw [if_pos hbuf, save_chunk_eq_of_ne _ _ hbuf]
    intro c hc
    simp only [List.dropLast_concat] at hc
    exact hloop c hc

/-- Witness for C2: on `[("a.", 0, 5), ("b", 5, 6)]` with `Config`, the
first (non-final) chunk `[0, 5]` satisfies the `min_len = 4` floor. -/
theorem c2_min_duration_witness : Config.min_len ≤ (5 : ℚ) - 0 :=
  c2_min_duration Config (by norm_num [Config]) ⟨"a.", 0, 5⟩ [⟨"b", 5, 6⟩]
    ⟨1, 0, 5, "a."⟩
    (by norm_num [planNE, planRun, step, save_chunk, initState, Config, List.foldl,
        List.cons_ne_nil, ends_aDot, ends_b, strip_join_aDot, strip_join_b])

/-! ### C4: the end-of-input flush -/

/-- C4. After the word loop, if accumulated text remains (no closing
condition fired on the last word), `chunk_audio` emits exactly one final
chunk covering `[chunk_start, words[-1].end]`, even when its duration is
below `min_len` and its text lacks terminal punctuation; in particular the
single unpunctuated word `("hello", 0, 2)` with `Config` (`min_len = 4`)
yields exactly the one chunk `[0, 2]`. -/
theorem c4_flush (pol : Policy) (w : Word) (ws : List Word)
    (hbuf : (planRun pol (w :: ws) (initState w)).current_text ≠ []) :
    planNE pol w ws =
      (planRun pol (w :: ws) (initState w)).transcripts ++
        [{ id := (planRun pol (w :: ws) (initState w)).chunk_id,
           start := (planRun pol (w :: ws) (initState w)).chunk_start,
           stop := (ws.getLastD w).stop,
           text := strip (String.join (planRun pol (w :: ws) (initState w)).current_text) }] ∧
    planNE Config ⟨"hello", 0, 2⟩ [] = [⟨1, 0, 2, "hello"⟩] := by
  constructor
  · simp only [planNE]
    rw [if_pos hbuf, save_chunk_eq_of_ne _ _ hbuf]
  · norm_num [planNE, planRun, step, save_chunk, initState, Config, List.foldl,
      List.cons_ne_nil, ends_hello, strip_join_hello]

/-- Witness for C4: Scenario C, instantiated. -/
theorem c4_flush_witness : planNE Config ⟨"hello", 0, 2⟩ [] = [⟨1, 0, 2, "hello"⟩] :=
  (c4_flush Config ⟨"hello", 0, 2⟩ []
    (by norm_num [planRun, step, save_chunk, initState, Config, List.foldl,
        List.cons_ne_nil, ends_hello])).2

/-! ### C5: text completeness -/

theorem texts_run (pol : Policy) :
    ∀ (ws : List Word) (st : PlanState) (past : List String) (gs : List (List String)),
      gs.join ++ st.current_text = past →
      st.transcripts.map Chunk.text = gs.map (fun g => strip (String.join g)) →
      ∃ gs' : List (List String),
        gs'.join ++ (planRun pol ws st).current_text = past ++ ws.map Word.text ∧
        (planRun pol ws st).transcripts.map Chunk.text =
          gs'.map (fun g => strip (String.join g)) := by
  intro ws
  induction ws with
  | nil =>
    intro st past gs h1 h2
    exact ⟨gs, by simpa using h1, h2⟩
  | cons w ws ih =>
    intro st past gs h1 h2
    have hr : planRun pol (w :: ws) st = planRun pol ws (step pol st w) := rfl
    rw [hr]
    rcases step_cases pol st w with ⟨heq, -⟩ | ⟨heq, -⟩
    · rw [heq, save_chunk_eq_of_ne _ _ (by simp)]
      obtain ⟨gs', hg1, hg2⟩ :=
        ih { transcripts := st.transcripts ++
              [{ id := st.chunk_id, start := st.chunk_start, stop := w.stop,
                 text := strip (String.join (st.current_text ++ [w.text])) }],
             current_text := [], chunk_start := w.stop, chunk_id := st.chunk_id + 1 }
          (past ++ [w.text]) (gs ++ [st.current_text ++ [w.text]])
          (by simp [← h1])
          (by simp [h2])
      exact ⟨gs', by rw [hg1]; simp, hg2⟩
    · rw [heq]
      obtain ⟨gs', hg1, hg2⟩ :=
        ih { st with current_text := st.current_text ++ [w.text] }
          (past ++ [w.text]) gs
          (by simp [← h1])
          h2
      exact ⟨gs', by rw [hg1]; simp, hg2⟩

/-- C5. For every non-empty word sequence, the chunk texts (in id
order) are exactly the per-chunk trimmed joins of a partition of the input
word texts into consecutive groups — i.e. concatenating all chunk texts
reproduces the concatenation of all word texts up to the whitespace removed
by per-chunk trimming; and Scenario A: words `("I",0,1), ("am.",1,4.5)`
with `Config` yield the single chunk `(1, 0, 4.5, "Iam.")`. -/
theorem c5_text_complete (pol : Policy) (w : Word) (ws : List Word) :
    (∃ gs : List (List String),
      gs.join = (w :: ws).map Word.text ∧
      (planNE pol w ws).map Chunk.text = gs.map (fun g => strip (String.join g))) ∧
    planNE Config ⟨"I", 0, 1⟩ [⟨"am.", 1, 4.5⟩] = [⟨1, 0, 4.5, "Iam."⟩] := by
  constructor
  · obtain ⟨gs', hg1, hg2⟩ :=
      texts_run pol (w :: ws) (initState w) [] []
        (by simp [initState]) (by simp [initState])
    simp only [planNE]
    by_cases hbuf : (planRun pol (w :: ws) (initState w)).current_text = []
    · rw [if_neg (by simpa using hbuf)]
      refine ⟨gs', ?_, hg2⟩
      rw [hbuf] at hg1
      simpa using hg1
    · rw [if_pos hbuf, save_chunk_eq_of_ne _ _ hbuf]
      refine ⟨gs' ++ [(planRun pol (w :: ws) (initState w)).current_text], ?_, ?_⟩
      · have := hg1
        simp only [List.nil_append] at this
        simp [← this]
      · simp [hg2]
  · norm_num [planNE, planRun, step, save_chunk, initState, Config, List.foldl,
      List.cons_ne_nil, ends_am, ends_I, strip_join_I_am]


/-! ### C3: forced close on overflow -/

theorem ends_a : endsWithAny (strip "a") [".", "?", "!"] = false := by decide
theorem strip_join_ab : strip (String.join ["a", "b"]) = "ab" := by decide
theorem ends_aaa : endsWithAny (strip "aaa") [".", "?", "!"] = false := by decide
theorem ends_bbb : endsWithAny (strip "bbb") [".", "?", "!"] = false := by decide
theorem ends_ccc : endsWithAny (strip "ccc") [".", "?", "!"] = false := by decide
theorem strip_join_aaabbb : strip (String.join ["aaa", "bbb"]) = "aaabbb" := by decide
theorem strip_join_ccc : strip (String.join ["ccc"]) = "ccc" := by decide

theorem c3_loop (pol : Policy) (full : List Word) (hmax : 0 ≤ pol.max_len) :
    ∀ (rest : List Word) (p : Word) (st : PlanState),
      (∀ v ∈ rest, v ∈ full) →
      (∀ v ∈ rest, endsWithAny (strip v.text) pol.punct = false) →
      (p :: rest).Chain' (fun a b => b.start ≤ a.stop) →
      (st.current_text = [] → st.chunk_start = p.stop) →
      (st.current_text ≠ [] → p.stop - st.chunk_start ≤ pol.max_len) →
      (∀ c ∈ st.transcripts, GoodOverflow pol full c) →
      ((planRun pol rest st).current_text = [] →
          (planRun pol rest st).chunk_start = (rest.getLastD p).stop) ∧
        ((planRun pol rest st).current_text ≠ [] →
          (rest.getLastD p).stop - (planRun pol rest st).chunk_start ≤ pol.max_len) ∧
        ∀ c ∈ (planRun pol rest st).transcripts, GoodOverflow pol full c := by
  intro rest
  induction rest with
  | nil =>
    intro p st _ _ _ h1 h2 h3
    exact ⟨h1, h2, h3⟩
  | cons w rest ih =>
    intro p st hfull hnp hchain h1 h2 h3
    have hr : planRun pol (w :: rest) st = planRun pol rest (step pol st w) := rfl
    rw [hr, List.getLastD_cons]
    have hwp : w.start ≤ p.stop := (List.chain'_cons.1 hchain).1
    have hwfull : w ∈ full := hfull w (List.mem_cons_self _ _)
    have hcursor : w.start - st.chunk_start ≤ pol.max_len := by
      by_cases hb : st.current_text = []
      · have := h1 hb
        linarith
      · have := h2 hb
        linarith
    rcases step_cases pol st w with ⟨heq, hcond⟩ | ⟨heq, hno1, -⟩
    · have hdur : pol.max_len < w.stop - st.chunk_start := by
        rcases hcond with hclose | hover
        · exact absurd hclose.2.2 (by simp [hnp w (List.mem_cons_self _ _)])
        · exact hover
      refine ih w (step pol st w) (fun v hv => hfull v (List.mem_cons_of_mem _ hv))
        (fun v hv => hnp v (List.mem_cons_of_mem _ hv)) (List.chain'_cons.1 hchain).2
        ?_ ?_ ?_
      · rw [heq, save_chunk_eq_of_ne _ _ (by simp)]
        intro
        rfl
      · rw [heq, save_chunk_eq_of_ne _ _ (by simp)]
        intro hne
        simp at hne
      · rw [heq, save_chunk_eq_of_ne _ _ (by simp)]
        intro c hc
        rcases List.mem_append.1 hc with hc | hc
        · exact h3 c hc
        · simp only [List.mem_singleton] at hc
          subst hc
          refine ⟨hdur, w, hwfull, rfl, ?_⟩
          have hspan : w.stop - st.chunk_start ≤ pol.max_len + (w.stop - w.start) := by
            linarith
          exact hspan
    · refine ih w (step pol st w) (fun v hv => hfull v (List.mem_cons_of_mem _ hv))
        (fun v hv => hnp v (List.mem_cons_of_mem _ hv)) (List.chain'_cons.1 hchain).2
        ?_ ?_ ?_
      · rw [heq]
        intro hb
        simp at hb
      · rw [heq]
        intro
        have : ¬ pol.max_len < w.stop - st.chunk_start := hno1
        push_neg at this
        exact this
      · rw [heq]
        exact h3

/-- C3 (amended). For every word sequence with no terminal punctuation
anywhere, whose consecutive words are contiguous (each word starts no later
than the previous word's end) and with `0 ≤ max_len`: every non-final
chunk, and also the final chunk when the loop left no trailing buffer, was
force-closed on overflow exactly at the end of a word: its duration
exceeds `max_len` but by no more than that closing word's own span, and
(by C1's tiling) the next chunk starts exactly at that word's end.
Without the contiguity hypothesis the one-word-span bound is false, see
the counterexample. -/
theorem c3_forced_overflow (pol : Policy) (w : Word) (ws : List Word)
    (hmax : 0 ≤ pol.max_len)
    (hnp : ∀ v ∈ w :: ws, endsWithAny (strip v.text) pol.punct = false)
    (hcontig : (w :: ws).Chain' (fun a b => b.start ≤ a.stop)) :
    (∀ c ∈ (planNE pol w ws).dropLast, GoodOverflow pol (w :: ws) c) ∧
    ((planRun pol (w :: ws) (initState w)).current_text = [] →
      ∀ c ∈ planNE pol w ws, GoodOverflow pol (w :: ws) c) := by
  have hloop := c3_loop pol (w :: ws) hmax (w :: ws) ⟨"", w.start, w.start⟩ (initState w)
    (fun v hv => hv) hnp
    (List.chain'_cons.2 ⟨le_refl _, hcontig⟩)
    (fun _ => rfl) (fun hne => absurd rfl hne)
    (by intro c hc; simp [initState] at hc)
  obtain ⟨-, -, hgood⟩ := hloop
  constructor
  · simp only [planNE]
    by_cases hbuf : (planRun pol (w :: ws) (initState w)).current_text = []
    · rw [if_neg (by simpa using hbuf)]
      intro c hc
      exact hgood c ((List.dropLast_sublist _).subset hc)
    · rw [if_pos hbuf, save_chunk_eq_of_ne _ _ hbuf]
      intro c hc
      simp only [List.dropLast_concat] at hc
      exact hgood c hc
  · intro hbuf
    simp only [planNE]
    rw [if_neg (by simpa using hbuf)]
    exact hgood

/-- Witness for C3 (amended): contiguous unpunctuated words
`("aaa",0,9), ("bbb",9,18), ("ccc",18,20)` under `Config`; the forced
first chunk `[0, 18]` exceeds `max_len = 17` by no more than the closing
word's span `18 - 9`. -/
theorem c3_forced_overflow_witness :
    GoodOverflow Config [⟨"aaa", 0, 9⟩, ⟨"bbb", 9, 18⟩, ⟨"ccc", 18, 20⟩]
      ⟨1, 0, 18, "aaabbb"⟩ :=
  (c3_forced_overflow Config ⟨"aaa", 0, 9⟩ [⟨"bbb", 9, 18⟩, ⟨"ccc", 18, 20⟩]
    (by norm_num [Config])
    (by intro v hv
        simp only [List.mem_cons, List.not_mem_nil, or_false] at hv
        rcases hv with rfl | rfl | rfl
        · exact ends_aaa
        · exact ends_bbb
        · exact ends_ccc)
    (by refine List.chain'_cons.2 ⟨by norm_num, List.chain'_cons.2 ⟨by norm_num, ?_⟩⟩
        simp)).1
    ⟨1, 0, 18, "aaabbb"⟩
    (by norm_num [planNE, planRun, step, save_chunk, initState, Config, List.foldl,
        List.cons_ne_nil, ends_aaa, ends_bbb, ends_ccc, strip_join_aaabbb, strip_join_ccc])

/-- Counterexample for C3 as stated: with the timestamp gap
`("a",0,1), ("b",100,100.5)` (valid data model: `start ≤ end`, sorted by
`start`, no punctuation anywhere), the forced chunk closes at `100.5` with
duration `100.5`, which exceeds `max_len = 17` by far more than either
word's own span (`1` and `0.5`). -/
theorem c3_counterexample :
    planNE Config ⟨"a", 0, 1⟩ [⟨"b", 100, 100.5⟩] = [⟨1, 0, 100.5, "ab"⟩] ∧
    endsWithAny (strip "a") Config.punct = false ∧
    endsWithAny (strip "b") Config.punct = false ∧
    ¬((100.5 : ℚ) - 0 ≤ Config.max_len + ((1 : ℚ) - 0)) ∧
    ¬((100.5 : ℚ) - 0 ≤ Config.max_len + ((100.5 : ℚ) - 100)) := by
  refine ⟨?_, ends_a, ends_b, by norm_num [Config], by norm_num [Config]⟩
  norm_num [planNE, planRun, step, save_chunk, initState, Config, List.foldl,
    List.cons_ne_nil, ends_a, ends_b, strip_join_ab]


/-! ### Basic facts about the effectful run -/

theorem runSave_empty (o : Oracle) (audio : List ℕ) (wd : String) (st : RunState)
    (e : ℚ) (h : st.current_text = []) :
    runSave o audio wd st e = (st, true) := by
  unfold runSave
  rw [if_pos h]

theorem runSave_allOk_of_ne (audio : List ℕ) (wd : String) (st : RunState) (e : ℚ)
    (h : st.current_text ≠ []) :
    runSave allOk audio wd st e =
      ({ transcripts := st.transcripts ++
           [{ id := st.chunk_id, start := st.chunk_start, stop := e,
              text := strip (String.join st.current_text) }],
         audios := st.audios ++ [(st.chunk_id, wavPath wd st.chunk_id)],
         current_text := [],
         chunk_start := e,
         chunk_id := st.chunk_id + 1,
         trace := (st.trace ++
             [Ev.writeWav st.chunk_id (pySlice audio (msec st.chunk_start) (msec e))]) ++
           [Ev.writeTxt st.chunk_id (strip (String.join st.current_text))] }, true) := by
  unfold runSave
  rw [if_neg h]
  simp [allOk]

theorem runSave_allOk_snd (audio : List ℕ) (wd : String) (st : RunState) (e : ℚ) :
    (runSave allOk audio wd st e).2 = true := by
  by_cases h : st.current_text = []
  · rw [runSave_empty _ _ _ _ _ h]
  · rw [runSave_allOk_of_ne _ _ _ _ h]

theorem runLoop_allOk_snd (pol : Policy) (audio : List ℕ) (wd : String) :
    ∀ (ws : List Word) (st : RunState),
      (runLoop pol allOk audio wd ws st).2 = true := by
  intro ws
  induction ws with
  | nil => intro st; rfl
  | cons w ws ih =>
    intro st
    simp only [runLoop]
    split_ifs
    · rcases hsv : runSave allOk audio wd
        { st with current_text := st.current_text ++ [w.text] } w.stop with ⟨st2, b⟩
      have hb : b = true := by
        have := runSave_allOk_snd audio wd
          { st with current_text := st.current_text ++ [w.text] } w.stop
        rw [hsv] at this
        exact this
      subst hb
      exact ih st2
    · rcases hsv : runSave allOk audio wd
        { st with current_text := st.current_text ++ [w.text] } w.stop with ⟨st2, b⟩
      have hb : b = true := by
        have := runSave_allOk_snd audio wd
          { st with current_text := st.current_text ++ [w.text] } w.stop
        rw [hsv] at this
        exact this
      subst hb
      exact ih st2
    · exact ih _

/-- A state invariant preserved by the buffer push and by `runSave` (in
success and in failure) is preserved by the whole loop, whether or not it
completes. -/
theorem runLoop_inv (pol : Policy) (o : Oracle) (audio : List ℕ) (wd : String)
    (P : RunState → Prop)
    (hpush : ∀ (st : RunState) (w : Word),
      P st → P { st with current_text := st.current_text ++ [w.text] })
    (hsave : ∀ (st : RunState) (e : ℚ), P st → P (runSave o audio wd st e).1) :
    ∀ (ws : List Word) (st : RunState), P st → P (runLoop pol o audio wd ws st).1 := by
  intro ws
  induction ws with
  | nil => intro st h; exact h
  | cons w ws ih =>
    intro st h
    simp only [runLoop]
    split_ifs
    · rcases hsv : runSave o audio wd
        { st with current_text := st.current_text ++ [w.text] } w.stop with ⟨st2, b⟩
      have hP2 : P st2 := by
        have := hsave { st with current_text := st.current_text ++ [w.text] } w.stop
          (hpush st w h)
        rw [hsv] at this
        exact this
      cases b
      · exact hP2
      · exact ih st2 hP2
    · rcases hsv : runSave o audio wd
        { st with current_text := st.current_text ++ [w.text] } w.stop with ⟨st2, b⟩
      have hP2 : P st2 := by
        have := hsave { st with current_text := st.current_text ++ [w.text] } w.stop
          (hpush st w h)
        rw [hsv] at this
        exact this
      cases b
      · exact hP2
      · exact ih st2 hP2
    · exact ih _ (hpush st w h)

theorem runSave_noManifest (o : Oracle) (audio : List ℕ) (wd : String)
    (st : RunState) (e : ℚ)
    (h : ∀ ev ∈ st.trace, ev.isManifest = false) :
    ∀ ev ∈ (runSave o audio wd st e).1.trace, ev.isManifest = false := by
  unfold runSave
  split_ifs
  · exact h
  · intro ev hev
    simp only [List.mem_append, List.mem_singleton] at hev
    rcases hev with (hev | rfl) | rfl
    · exact h ev hev
    · rfl
    · rfl
  · intro ev hev
    simp only [List.mem_append, List.mem_singleton] at hev
    rcases hev with hev | rfl
    · exact h ev hev
    · rfl
  · exact h

/-! ### C6: precondition handling -/

/-- C6 (amended). An empty word sequence is a fatal precondition
failure for `chunk_audio` (`IndexError` at `words[0]["start"]`): nothing is
written and no manifest is produced.  A word with `end < start`, however,
is not detected at all: for every non-empty word sequence — malformed words
included — a failure-free run produces a manifest. -/
theorem c6_empty_fatal_malformed_accepted (pol : Policy) (oracle : Oracle)
    (audio : List ℕ) (wd : String) :
    chunk_audio pol oracle audio [] wd = ([], none) ∧
    ∀ (w : Word) (ws : List Word),
      ((chunk_audio pol allOk audio (w :: ws) wd).2).isSome = true := by
  refine ⟨rfl, ?_⟩
  intro w ws
  simp only [chunk_audio]
  rw [runLoop_allOk_snd pol audio wd (w :: ws), runSave_allOk_snd]
  simp

theorem strip_join_a : strip (String.join ["a"]) = "a" := by decide

/-- Full evaluation of `chunk_audio` on the single malformed word
`("a", 1, 0)` (`end < start`): no condition fires in the loop, the flush
emits the chunk `[1, 0]`, and the manifest is written. -/
theorem c6_ce_run (audio : List ℕ) (wd : String) :
    chunk_audio Config allOk audio [⟨"a", 1, 0⟩] wd =
      ([Ev.writeWav 1 (pySlice audio (msec 1) (msec 0)),
        Ev.writeTxt 1 "a",
        Ev.writeManifest [⟨1, 1, 0, "a"⟩] [(1, wavPath wd 1)]],
       some ⟨[⟨1, 1, 0, "a"⟩], [(1, wavPath wd 1)]⟩) := by
  norm_num [chunk_audio, runLoop, runSave, allOk, Config, ends_a, strip_join_a,
    List.cons_ne_nil]

/-- Counterexample for C6 as stated: the single word `("a", 1, 0)` has
`end < start`, yet `chunk_audio` raises no error: it emits a chunk and
writes a manifest. -/
theorem c6_counterexample :
    ((⟨"a", 1, 0⟩ : Word).stop < (⟨"a", 1, 0⟩ : Word).start) ∧
    ((chunk_audio Config allOk [] [⟨"a", 1, 0⟩] "wav").2).isSome = true ∧
    (chunk_audio Config allOk [] [⟨"a", 1, 0⟩] "wav").1.any Ev.isManifest = true := by
  refine ⟨by norm_num, ?_, ?_⟩
  · rw [c6_ce_run]
    rfl
  · rw [c6_ce_run]
    simp [Ev.isManifest]


/-! ### C9: the manifest is written last, and only on full success -/

/-- C9. The manifest (`chunks_mapping.json`) is written only after
every chunk of the recording has been materialized: if the run fails, no
event of the trace is a manifest write; if it succeeds, the manifest write
is exactly the last event of the trace and no earlier event is one.  In
particular no manifest exists at any point during the per-word loop or the
per-chunk writing. -/
theorem c9_manifest_last (pol : Policy) (o : Oracle) (audio : List ℕ)
    (words : List Word) (wd : String) :
    ((chunk_audio pol o audio words wd).2 = none →
      ∀ ev ∈ (chunk_audio pol o audio words wd).1, ev.isManifest = false) ∧
    ∀ m : Manifest, (chunk_audio pol o audio words wd).2 = some m →
      ∃ t, (chunk_audio pol o audio words wd).1 =
          t ++ [Ev.writeManifest m.transcript m.audio] ∧
        ∀ ev ∈ t, ev.isManifest = false := by
  cases words with
  | nil =>
    constructor
    · intro _ ev hev
      exact absurd hev (List.not_mem_nil ev)
    · intro m hm
      simp [chunk_audio] at hm
  | cons w ws =>
    have hnmf : ∀ ev ∈ (runLoop pol o audio wd (w :: ws)
        { transcripts := [], audios := [], current_text := [],
          chunk_start := w.start, chunk_id := 1, trace := [] }).1.trace,
        ev.isManifest = false :=
      runLoop_inv pol o audio wd (fun st => ∀ ev ∈ st.trace, ev.isManifest = false)
        (fun st v h => h) (fun st e h => runSave_noManifest o audio wd st e h)
        (w :: ws) _ (by intro ev hev; exact absurd hev (List.not_mem_nil ev))
    simp only [chunk_audio]
    by_cases hb : (runLoop pol o audio wd (w :: ws)
        { transcripts := [], audios := [], current_text := [],
          chunk_start := w.start, chunk_id := 1, trace := [] }).2 = false
    · rw [if_pos hb]
      exact ⟨fun _ => hnmf, fun m hm => by simp at hm⟩
    · rw [if_neg hb]
      have hnmf2 := runSave_noManifest o audio wd _ ((ws.getLastD w).stop) hnmf
      by_cases hb2 : (runSave o audio wd (runLoop pol o audio wd (w :: ws)
          { transcripts := [], audios := [], current_text := [],
            chunk_start := w.start, chunk_id := 1, trace := [] }).1
          ((ws.getLastD w).stop)).2 = false
      · rw [if_pos hb2]
        exact ⟨fun _ => hnmf2, fun m hm => by simp at hm⟩
      · rw [if_neg hb2]
        constructor
        · intro hnone
          simp at hnone
        · intro m hm
          simp only [Option.some.injEq] at hm
          subst hm
          exact ⟨_, rfl, hnmf2⟩

theorem ends_bDot : endsWithAny (strip "b.") [".", "?", "!"] = true := by decide
theorem strip_join_bDot : strip (String.join ["b."]) = "b." := by decide

/-- Full evaluation of a failure-free run of `chunk_audio` on the single
word `("a.", 0, 5)`: the chunk closes on punctuation inside the loop, and
the manifest write is the last event. -/
theorem c8_run (audio : List ℕ) (wd : String) :
    chunk_audio Config allOk audio [⟨"a.", 0, 5⟩] wd =
      ([Ev.writeWav 1 (pySlice audio (msec 0) (msec 5)),
        Ev.writeTxt 1 "a.",
        Ev.writeManifest [⟨1, 0, 5, "a."⟩] [(1, wavPath wd 1)]],
       some ⟨[⟨1, 0, 5, "a."⟩], [(1, wavPath wd 1)]⟩) := by
  norm_num [chunk_audio, runLoop, runSave, allOk, Config, ends_aDot, strip_join_aDot,
    List.cons_ne_nil]

/-- Witness for C9: on the successful single-word run, the trace is a
prefix of non-manifest events followed by exactly the manifest write. -/
theorem c9_manifest_last_witness :
    ∃ t, (chunk_audio Config allOk [] [⟨"a.", 0, 5⟩] "w").1 =
        t ++ [Ev.writeManifest [⟨1, 0, 5, "a."⟩] [(1, wavPath "w" 1)]] ∧
      ∀ ev ∈ t, ev.isManifest = false :=
  (c9_manifest_last Config allOk [] [⟨"a.", 0, 5⟩] "w").2
    ⟨[⟨1, 0, 5, "a."⟩], [(1, wavPath "w" 1)]⟩ (by rw [c8_run])

/-! ### C7: a chunk write failure aborts the whole run -/

theorem traceIds_append (t1 t2 : List Ev) :
    traceIds (t1 ++ t2) = traceIds t1 ++ traceIds t2 := by
  induction t1 with
  | nil => rfl
  | cons ev t ih => cases ev <;> simp [traceIds, ih]

theorem runSave_ids_le (o : Oracle) (audio : List ℕ) (wd : String) (st : RunState)
    (e : ℚ) (h : ∀ i ∈ traceIds st.trace, i ≤ st.chunk_id) :
    ∀ i ∈ traceIds (runSave o audio wd st e).1.trace,
      i ≤ (runSave o audio wd st e).1.chunk_id := by
  unfold runSave
  split_ifs
  · exact h
  · intro i hi
    simp only [traceIds_append, traceIds, List.mem_append, List.mem_cons,
      List.not_mem_nil, or_false] at hi
    rcases hi with (hi | rfl) | rfl
    · exact le_trans (h i hi) (Nat.le_succ _)
    · exact Nat.le_succ _
    · exact Nat.le_succ _
  · intro i hi
    simp only [traceIds_append, traceIds, List.mem_append, List.mem_cons,
      List.not_mem_nil, or_false] at hi
    rcases hi with hi | rfl
    · exact h i hi
    · exact le_refl _
  · exact h

theorem runSave_fail (o : Oracle) (audio : List ℕ) (wd : String) (st : RunState)
    (e : ℚ) (h : ∀ i ∈ traceIds st.trace, i ≤ st.chunk_id)
    (hf : (runSave o audio wd st e).2 = false) :
    (o.wavOk st.chunk_id = false ∨ o.txtOk st.chunk_id = false) ∧
    ∀ i ∈ traceIds (runSave o audio wd st e).1.trace, i ≤ st.chunk_id := by
  unfold runSave at hf ⊢
  split_ifs at hf ⊢ with h1 h2 h3
  · refine ⟨Or.inr (by simpa using h3), ?_⟩
    intro i hi
    simp only [traceIds_append, traceIds, List.mem_append, List.mem_cons,
      List.not_mem_nil, or_false] at hi
    rcases hi with hi | rfl
    · exact h i hi
    · exact le_refl _
  · refine ⟨Or.inl (by simpa using h2), ?_⟩
    intro i hi
    exact h i hi

theorem runLoop_fail (pol : Policy) (o : Oracle) (audio : List ℕ) (wd : String) :
    ∀ (ws : List Word) (st : RunState),
      (∀ i ∈ traceIds st.trace, i ≤ st.chunk_id) →
      (runLoop pol o audio wd ws st).2 = false →
      ∃ k, (o.wavOk k = false ∨ o.txtOk k = false) ∧
        ∀ i ∈ traceIds (runLoop pol o audio wd ws st).1.trace, i ≤ k := by
  intro ws
  induction ws with
  | nil =>
    intro st h hf
    simp [runLoop] at hf
  | cons w ws ih =>
    intro st h hf
    simp only [runLoop] at hf ⊢
    split_ifs at hf ⊢
    · rcases hsv : runSave o audio wd
        { st with current_text := st.current_text ++ [w.text] } w.stop with ⟨st2, b⟩
      rw [hsv] at hf
      cases b
      · obtain ⟨hor, hle⟩ := runSave_fail o audio wd
          { st with current_text := st.current_text ++ [w.text] } w.stop h
          (by rw [hsv])
        rw [hsv] at hle
        exact ⟨st.chunk_id, hor, hle⟩
      · have h2 : ∀ i ∈ traceIds st2.trace, i ≤ st2.chunk_id := by
          have := runSave_ids_le o audio wd
            { st with current_text := st.current_text ++ [w.text] } w.stop h
          rw [hsv] at this
          exact this
        exact ih st2 h2 hf
    · rcases hsv : runSave o audio wd
        { st with current_text := st.current_text ++ [w.text] } w.stop with ⟨st2, b⟩
      rw [hsv] at hf
      cases b
      · obtain ⟨hor, hle⟩ := runSave_fail o audio wd
          { st with current_text := st.current_text ++ [w.text] } w.stop h
          (by rw [hsv])
        rw [hsv] at hle
        exact ⟨st.chunk_id, hor, hle⟩
      · have h2 : ∀ i ∈ traceIds st2.trace, i ≤ st2.chunk_id := by
          have := runSave_ids_le o audio wd
            { st with current_text := st.current_text ++ [w.text] } w.stop h
          rw [hsv] at this
          exact this
        exact ih st2 h2 hf
    · exact ih _ h hf

/-- C7 (amended). An I/O failure while writing one chunk's audio or
text file is NOT recovered: the exception propagates and `chunk_audio`
aborts at that point.  Whenever a run of a non-empty word list returns no
manifest, no manifest was written, and there is a failing chunk id `k`
(its wav or txt write fails) such that every write performed belongs to a
chunk id at most `k` — no later chunk is ever attempted, even if its own
writes would succeed. -/
theorem c7_failure_aborts (pol : Policy) (o : Oracle) (audio : List ℕ)
    (wd : String) (w : Word) (ws : List Word)
    (hfail : (chunk_audio pol o audio (w :: ws) wd).2 = none) :
    (∀ ev ∈ (chunk_audio pol o audio (w :: ws) wd).1, ev.isManifest = false) ∧
    ∃ k, (o.wavOk k = false ∨ o.txtOk k = false) ∧
      ∀ i ∈ traceIds (chunk_audio pol o audio (w :: ws) wd).1, i ≤ k := by
  have hnmf : ∀ ev ∈ (runLoop pol o audio wd (w :: ws)
      { transcripts := [], audios := [], current_text := [],
        chunk_start := w.start, chunk_id := 1, trace := [] }).1.trace,
      ev.isManifest = false :=
    runLoop_inv pol o audio wd (fun st => ∀ ev ∈ st.trace, ev.isManifest = false)
      (fun st v h => h) (fun st e h => runSave_noManifest o audio wd st e h)
      (w :: ws) _ (by intro ev hev; exact absurd hev (List.not_mem_nil ev))
  have hids : ∀ i ∈ traceIds (runLoop pol o audio wd (w :: ws)
      { transcripts := [], audios := [], current_text := [],
        chunk_start := w.start, chunk_id := 1, trace := [] }).1.trace,
      i ≤ (runLoop pol o audio wd (w :: ws)
      { transcripts := [], audios := [], current_text := [],
        chunk_start := w.start, chunk_id := 1, trace := [] }).1.chunk_id :=
    runLoop_inv pol o audio wd
      (fun st => ∀ i ∈ traceIds st.trace, i ≤ st.chunk_id)
      (fun st v h => h) (fun st e h => runSave_ids_le o audio wd st e h)
      (w :: ws) _ (by intro i hi; exact absurd hi (List.not_mem_nil i))
  simp only [chunk_audio] at hfail ⊢
  by_cases hb : (runLoop pol o audio wd (w :: ws)
      { transcripts := [], audios := [], current_text := [],
        chunk_start := w.start, chunk_id := 1, trace := [] }).2 = false
  · rw [if_pos hb]
    refine ⟨hnmf, ?_⟩
    obtain ⟨k, hor, hle⟩ := runLoop_fail pol o audio wd (w :: ws)
      { transcripts := [], audios := [], current_text := [],
        chunk_start := w.start, chunk_id := 1, trace := [] }
      (by intro i hi; exact absurd hi (List.not_mem_nil i)) hb
    exact ⟨k, hor, hle⟩
  · rw [if_neg hb]
    rw [if_neg hb] at hfail
    by_cases hb2 : (runSave o audio wd (runLoop pol o audio wd (w :: ws)
        { transcripts := [], audios := [], current_text := [],
          chunk_start := w.start, chunk_id := 1, trace := [] }).1
        ((ws.getLastD w).stop)).2 = false
    · rw [if_pos hb2]
      refine ⟨runSave_noManifest o audio wd _ _ hnmf, ?_⟩
      obtain ⟨hor, hle⟩ := runSave_fail o audio wd _ ((ws.getLastD w).stop) hids hb2
      exact ⟨_, hor, hle⟩
    · rw [if_neg hb2] at hfail
      simp at hfail

/-- Evaluation of the C7 scenario: with the wav write of chunk 1 failing,
`chunk_audio` performs no write at all and returns no manifest. -/
theorem c7_ce_run :
    chunk_audio Config badOracle [] [⟨"a.", 0, 5⟩, ⟨"b.", 5, 10⟩] "wav" = ([], none) := by
  norm_num [chunk_audio, runLoop, runSave, badOracle, Config, ends_aDot,
    strip_join_aDot, List.cons_ne_nil]

/-- Counterexample for C7 as stated: the plan for
`("a.",0,5), ("b.",5,10)` has two chunks and chunk 2's writes would
succeed, yet when chunk 1's wav write fails the whole recording is
aborted: nothing is written (chunk 2 is never attempted, no failure is
recorded) and no manifest is produced. -/
theorem c7_counterexample :
    chunk_audio Config badOracle [] [⟨"a.", 0, 5⟩, ⟨"b.", 5, 10⟩] "wav" = ([], none) ∧
    planNE Config ⟨"a.", 0, 5⟩ [⟨"b.", 5, 10⟩] =
      [⟨1, 0, 5, "a."⟩, ⟨2, 5, 10, "b."⟩] ∧
    badOracle.wavOk 2 = true ∧ badOracle.txtOk 2 = true := by
  refine ⟨c7_ce_run, ?_, rfl, rfl⟩
  norm_num [planNE, planRun, step, save_chunk, initState, Config, List.foldl,
    List.cons_ne_nil, ends_aDot, ends_bDot, strip_join_aDot, strip_join_bDot]

/-- Witness for C7 (amended), at the failing-oracle run above. -/
theorem c7_failure_aborts_witness :
    (∀ ev ∈ (chunk_audio Config badOracle [] [⟨"a.", 0, 5⟩, ⟨"b.", 5, 10⟩] "wav").1,
        ev.isManifest = false) ∧
    ∃ k, (badOracle.wavOk k = false ∨ badOracle.txtOk k = false) ∧
      ∀ i ∈ traceIds (chunk_audio Config badOracle [] [⟨"a.", 0, 5⟩, ⟨"b.", 5, 10⟩] "wav").1,
        i ≤ k :=
  c7_failure_aborts Config badOracle [] "wav" ⟨"a.", 0, 5⟩ [⟨"b.", 5, 10⟩]
    (by rw [c7_ce_run])


/-! ### C8: out-of-range slices clamp silently -/

/-- A pydub slice never reads out of bounds: Python slicing clamps, so the
extracted segment is never longer than the decoded waveform. -/
theorem length_pySlice_le (l : List ℕ) (a b : ℤ) :
    (pySlice l a b).length ≤ l.length := by
  simp only [pySlice, List.length_drop, List.length_take]
  omega

theorem runSave_wavLen (o : Oracle) (audio : List ℕ) (wd : String) (st : RunState)
    (e : ℚ)
    (h : ∀ i d, Ev.writeWav i d ∈ st.trace → d.length ≤ audio.length) :
    ∀ i d, Ev.writeWav i d ∈ (runSave o audio wd st e).1.trace →
      d.length ≤ audio.length := by
  unfold runSave
  split_ifs
  · exact h
  · intro i d hd
    simp only [List.mem_append, List.mem_cons, List.not_mem_nil, or_false] at hd
    rcases hd with (hd | hd) | hd
    · exact h i d hd
    · obtain ⟨-, rfl⟩ := Ev.writeWav.inj hd
      exact length_pySlice_le audio _ _
    · exact absurd hd (by simp)
  · intro i d hd
    simp only [List.mem_append, List.mem_cons, List.not_mem_nil, or_false] at hd
    rcases hd with hd | hd
    · exact h i d hd
    · obtain ⟨-, rfl⟩ := Ev.writeWav.inj hd
      exact length_pySlice_le audio _ _
  · exact h

/-- C8 (amended). When a chunk's computed end offset lies beyond the
end of the decoded waveform, the extracted range is clamped to the
waveform's length (Python slice semantics) instead of reading out of
bounds, the chunk still gets its manifest entry, and the run is not
aborted — but no warning of any kind is surfaced: every failure-free run
returns a manifest, and every audio payload ever written is within the
waveform's bounds. -/
theorem c8_clamped_silently (pol : Policy) (audio : List ℕ) (wd : String)
    (w : Word) (ws : List Word) :
    ((chunk_audio pol allOk audio (w :: ws) wd).2).isSome = true ∧
    ∀ i d, Ev.writeWav i d ∈ (chunk_audio pol allOk audio (w :: ws) wd).1 →
      d.length ≤ audio.length := by
  have hlen : ∀ i d, Ev.writeWav i d ∈ (runLoop pol allOk audio wd (w :: ws)
      { transcripts := [], audios := [], current_text := [],
        chunk_start := w.start, chunk_id := 1, trace := [] }).1.trace →
      d.length ≤ audio.length :=
    runLoop_inv pol allOk audio wd
      (fun st => ∀ i d, Ev.writeWav i d ∈ st.trace → d.length ≤ audio.length)
      (fun st v h => h) (fun st e h => runSave_wavLen allOk audio wd st e h)
      (w :: ws) _ (by intro i d hd; exact absurd hd (List.not_mem_nil _))
  constructor
  · simp only [chunk_audio]
    rw [runLoop_allOk_snd pol audio wd (w :: ws), runSave_allOk_snd]
    simp
  · simp only [chunk_audio]
    rw [runLoop_allOk_snd pol audio wd (w :: ws), runSave_allOk_snd]
    simp only [Bool.true_eq_false, if_false, reduceIte]
    intro i d hd
    rcases List.mem_append.1 hd with hd | hd
    · exact runSave_wavLen allOk audio wd _ _ hlen i d hd
    · exact absurd (List.mem_singleton.1 hd) (by simp)

/-- Counterexample for C8 as stated: Scenario D input, one chunk ending at
5 s (`end_sample` 5000) but a waveform of only 2 ms.  The slice is clamped
(the written payload is the whole short waveform), the manifest entry is
produced and the run completes — but no mismatch is surfaced anywhere: the
returned manifest is identical to that of a run whose waveform is long
enough, so the drift is not flagged. -/
theorem c8_counterexample :
    (chunk_audio Config allOk [7, 8] [⟨"a.", 0, 5⟩] "wav").2 =
      (chunk_audio Config allOk (List.range 6000) [⟨"a.", 0, 5⟩] "wav").2 ∧
    (chunk_audio Config allOk [7, 8] [⟨"a.", 0, 5⟩] "wav").1 =
      [Ev.writeWav 1 [7, 8], Ev.writeTxt 1 "a.",
       Ev.writeManifest [⟨1, 0, 5, "a."⟩] [(1, wavPath "wav" 1)]] ∧
    msec 5 = 5000 ∧ ((5000 : ℤ) > (([7, 8] : List ℕ).length : ℤ)) := by
  have hm0 : msec 0 = 0 := by norm_num [msec, pyInt]
  have hm5 : msec 5 = 5000 := by norm_num [msec, pyInt]
  refine ⟨by rw [c8_run, c8_run], ?_, hm5, by norm_num⟩
  rw [c8_run, hm0, hm5]
  have hs : pySlice [7, 8] 0 5000 = [7, 8] := by decide
  rw [hs]


/-! ### C10: concatenation of the written chunk audio -/

theorem pyInt_of_nonneg {q : ℚ} (h : 0 ≤ q) : pyInt q = ⌊q⌋ := by
  unfold pyInt
  rw [if_neg (not_lt.2 h)]

theorem msec_nonneg {t : ℚ} (h : 0 ≤ t) : 0 ≤ msec t := by
  unfold msec
  have h1 : (0 : ℚ) ≤ t * 1000 := by positivity
  rw [pyInt_of_nonneg h1]
  exact Int.le_floor.2 (by exact_mod_cast h1)

theorem msec_mono {a b : ℚ} (h0 : 0 ≤ a) (hab : a ≤ b) : msec a ≤ msec b := by
  unfold msec
  have h1 : (0 : ℚ) ≤ a * 1000 := by positivity
  have h2 : (0 : ℚ) ≤ b * 1000 := by nlinarith
  rw [pyInt_of_nonneg h1, pyInt_of_nonneg h2]
  exact Int.floor_le_floor (by nlinarith)

theorem wavDatas_append (t1 t2 : List Ev) :
    wavDatas (t1 ++ t2) = wavDatas t1 ++ wavDatas t2 := by
  induction t1 with
  | nil => rfl
  | cons ev t ih => cases ev <;> simp [wavDatas, ih]

theorem pySliceIdx_of_nonneg {i : ℤ} (h : 0 ≤ i) (n : ℕ) :
    pySliceIdx n i = min i.toNat n := by
  unfold pySliceIdx
  rw [if_neg (not_lt.2 h)]

theorem take_min_length (l : List ℕ) (m : ℕ) : l.take (min m l.length) = l.take m := by
  rcases le_total m l.length with h | h
  · rw [min_eq_left h]
  · rw [min_eq_right h, List.take_length, List.take_of_length_le h]

theorem drop_min_length (l l' : List ℕ) (m : ℕ) (hl : l'.length ≤ l.length) :
    l'.drop (min m l.length) = l'.drop m := by
  rcases le_total m l.length with h | h
  · rw [min_eq_left h]
  · rw [min_eq_right h, List.drop_eq_nil_of_le hl, List.drop_eq_nil_of_le (le_trans hl h)]

theorem take_drop_concat (l : List ℕ) (a b c : ℕ) (hab : a ≤ b) (hbc : b ≤ c) :
    (l.take b).drop a ++ (l.take c).drop b = (l.take c).drop a := by
  by_cases hl : a ≤ l.length
  · have h1 : (l.take c).take b = l.take b := by
      rw [List.take_take, min_eq_left hbc]
    conv_rhs => rw [← List.take_append_drop b (l.take c), h1]
    rw [List.drop_append_of_le_length (by rw [List.length_take]; exact le_min hab hl)]
  · push_neg at hl
    have h1 : (l.take b).length ≤ a := by rw [List.length_take]; omega
    have h2 : (l.take c).length ≤ b := by rw [List.length_take]; omega
    have h3 : (l.take c).length ≤ a := by rw [List.length_take]; omega
    rw [List.drop_eq_nil_of_le h1, List.drop_eq_nil_of_le h2, List.drop_eq_nil_of_le h3]
    rfl

/-- Adjacent Python slices concatenate exactly, even under clamping:
`l[a:b] + l[b:c] = l[a:c]` for `0 ≤ a ≤ b ≤ c`.  This is the no-duplicate,
no-drop property of the chunk boundaries. -/
theorem pySlice_concat (l : List ℕ) (a b c : ℤ)
    (h0 : 0 ≤ a) (hab : a ≤ b) (hbc : b ≤ c) :
    pySlice l a b ++ pySlice l b c = pySlice l a c := by
  have h0b : 0 ≤ b := le_trans h0 hab
  have h0c : 0 ≤ c := le_trans h0b hbc
  simp only [pySlice, pySliceIdx_of_nonneg h0, pySliceIdx_of_nonneg h0b,
    pySliceIdx_of_nonneg h0c, take_min_length]
  rw [drop_min_length l (l.take b.toNat) a.toNat (by rw [List.length_take]; omega),
      drop_min_length l (l.take c.toNat) b.toNat (by rw [List.length_take]; omega),
      drop_min_length l (l.take c.toNat) a.toNat (by rw [List.length_take]; omega)]
  exact take_drop_concat l a.toNat b.toNat c.toNat
    (Int.toNat_le_toNat hab) (Int.toNat_le_toNat hbc)

theorem pySlice_self (l : List ℕ) (a : ℤ) : pySlice l a a = [] := by
  simp only [pySlice]
  apply List.drop_eq_nil_of_le
  rw [List.length_take]
  exact min_le_left _ _

theorem c10_loop (pol : Policy) (audio : List ℕ) (wd : String) (s0 : ℚ) (hs0 : 0 ≤ s0) :
    ∀ (rest : List Word) (p : Word) (st : RunState),
      (p :: rest).Chain' (fun a b => a.stop ≤ b.stop) →
      s0 ≤ st.chunk_start →
      st.chunk_start ≤ p.stop →
      (st.current_text = [] → st.chunk_start = p.stop) →
      List.join (wavDatas st.trace) = pySlice audio (msec s0) (msec st.chunk_start) →
      s0 ≤ (runLoop pol allOk audio wd rest st).1.chunk_start ∧
        (runLoop pol allOk audio wd rest st).1.chunk_start ≤ (rest.getLastD p).stop ∧
        ((runLoop pol allOk audio wd rest st).1.current_text = [] →
          (runLoop pol allOk audio wd rest st).1.chunk_start = (rest.getLastD p).stop) ∧
        List.join (wavDatas (runLoop pol allOk audio wd rest st).1.trace) =
          pySlice audio (msec s0) (msec (runLoop pol allOk audio wd rest st).1.chunk_start) := by
  intro rest
  induction rest with
  | nil =>
    intro p st _ h1 h2 h3 h4
    exact ⟨h1, h2, h3, h4⟩
  | cons w rest ih =>
    intro p st hchain h1 h2 h3 h4
    have hpw : p.stop ≤ w.stop := (List.chain'_cons.1 hchain).1
    have hcw : st.chunk_start ≤ w.stop := le_trans h2 hpw
    simp only [runLoop, List.getLastD_cons]
    split_ifs
    · rw [runSave_allOk_of_ne audio wd _ w.stop (by simp)]
      refine ih w _ (List.chain'_cons.1 hchain).2 (le_trans h1 hcw) (le_refl _)
        (fun _ => rfl) ?_
      simp only [List.join] at h4 ⊢
      simp only [wavDatas_append, wavDatas, List.flatten_append, List.flatten_cons,
        List.flatten_nil, List.append_nil]
      rw [h4]
      exact pySlice_concat audio _ _ _ (msec_nonneg hs0) (msec_mono hs0 h1)
        (msec_mono (le_trans hs0 h1) hcw)
    · rw [runSave_allOk_of_ne audio wd _ w.stop (by simp)]
      refine ih w _ (List.chain'_cons.1 hchain).2 (le_trans h1 hcw) (le_refl _)
        (fun _ => rfl) ?_
      simp only [List.join] at h4 ⊢
      simp only [wavDatas_append, wavDatas, List.flatten_append, List.flatten_cons,
        List.flatten_nil, List.append_nil]
      rw [h4]
      exact pySlice_concat audio _ _ _ (msec_nonneg hs0) (msec_mono hs0 h1)
        (msec_mono (le_trans hs0 h1) hcw)
    · exact ih w _ (List.chain'_cons.1 hchain).2 h1 hcw
        (fun hb => absurd hb (by simp)) h4

/-- C10 (amended). When the word sequence has non-decreasing end times
and a valid first word with non-negative start (as any well-formed
transcript does), the millisecond truncation `int(t * 1000)` applied to
the shared boundary values makes the written chunk audio segments tile
exactly: concatenating all written chunk audio, in order, equals the
single contiguous slice
`audio[int(words[0].start*1000) : int(words[-1].end*1000)]`, with no
duplicated or dropped milliseconds at chunk boundaries.  Without the
non-decreasing-end hypothesis the equality is false, see the
counterexample. -/
theorem c10_audio_concat (pol : Policy) (audio : List ℕ) (wd : String)
    (w : Word) (ws : List Word)
    (h0 : 0 ≤ w.start) (hv : w.start ≤ w.stop)
    (hends : (w :: ws).Chain' (fun a b => a.stop ≤ b.stop)) :
    List.join (wavDatas (chunk_audio pol allOk audio (w :: ws) wd).1) =
      pySlice audio (msec w.start) (msec ((ws.getLastD w).stop)) := by
  have hloop := c10_loop pol audio wd w.start h0 (w :: ws) ⟨"", w.start, w.start⟩
    { transcripts := [], audios := [], current_text := [],
      chunk_start := w.start, chunk_id := 1, trace := [] }
    (List.chain'_cons.2 ⟨hv, hends⟩) (le_refl _) (le_refl _) (fun _ => rfl)
    (by simp only [wavDatas, List.join]
        exact (pySlice_self audio _).symm)
  rw [List.getLastD_cons] at hloop
  obtain ⟨hA, hB, hC, hD⟩ := hloop
  simp only [chunk_audio]
  rw [runLoop_allOk_snd pol audio wd (w :: ws)]
  simp only [Bool.true_eq_false, if_false, reduceIte]
  by_cases hbuf : (runLoop pol allOk audio wd (w :: ws)
      { transcripts := [], audios := [], current_text := [],
        chunk_start := w.start, chunk_id := 1, trace := [] }).1.current_text = []
  · rw [runSave_empty allOk audio wd _ _ hbuf]
    simp only [Bool.true_eq_false, if_false, reduceIte]
    rw [wavDatas_append]
    simp only [wavDatas, List.append_nil]
    rw [hD, hC hbuf]
  · rw [runSave_allOk_of_ne audio wd _ _ hbuf]
    simp only [Bool.true_eq_false, if_false, reduceIte]
    simp only [List.join] at hD ⊢
    rw [wavDatas_append, wavDatas_append, wavDatas_append]
    simp only [wavDatas, List.append_nil, List.flatten_append, List.flatten_cons,
      List.flatten_nil]
    rw [hD]
    exact pySlice_concat audio _ _ _ (msec_nonneg h0) (msec_mono h0 hA)
      (msec_mono (le_trans h0 hA) hB)

/-- Witness for C10 (amended): the single-word run on a waveform shorter
than the chunk; the written audio concatenates to the full (clamped)
slice. -/
theorem c10_audio_concat_witness :
    List.join (wavDatas (chunk_audio Config allOk [7, 8] [⟨"a.", 0, 5⟩] "w").1) =
      pySlice [7, 8] (msec 0) (msec 5) :=
  c10_audio_concat Config [7, 8] "w" ⟨"a.", 0, 5⟩ []
    (by norm_num) (by norm_num) (by simp)

/-- Full evaluation of `chunk_audio` on `("a",0,20), ("b",1,2)` (sorted by
start, each `start ≤ end`, no punctuation): word 1 force-closes at 20, the
flush then emits the chunk `[20, 2]` whose slice is empty. -/
theorem c10_ce_run (audio : List ℕ) (wd : String) :
    chunk_audio Config allOk audio [⟨"a", 0, 20⟩, ⟨"b", 1, 2⟩] wd =
      ([Ev.writeWav 1 (pySlice audio (msec 0) (msec 20)),
        Ev.writeTxt 1 "a",
        Ev.writeWav 2 (pySlice audio (msec 20) (msec 2)),
        Ev.writeTxt 2 "b",
        Ev.writeManifest [⟨1, 0, 20, "a"⟩, ⟨2, 20, 2, "b"⟩]
          [(1, wavPath wd 1), (2, wavPath wd 2)]],
       some ⟨[⟨1, 0, 20, "a"⟩, ⟨2, 20, 2, "b"⟩],
             [(1, wavPath wd 1), (2, wavPath wd 2)]⟩) := by
  norm_num [chunk_audio, runLoop, runSave, allOk, Config, ends_a, ends_b,
    strip_join_a, strip_join_b, List.cons_ne_nil]

/-- Counterexample for C10 as stated: for the valid word sequence
`("a",0,20), ("b",1,2)` (sorted by start, `start ≤ end` for each word) on
a 2001-sample waveform, the concatenated written chunk audio has 2001
samples while the contiguous slice
`audio[int(words[0].start*1000) : int(words[-1].end*1000)]` has 2000: the
trailing chunk `[20, 2]` runs backwards, its slice is empty, and the
samples are not tiled. -/
theorem c10_counterexample :
    ¬ List.join (wavDatas (chunk_audio Config allOk (List.range 2001)
          [⟨"a", 0, 20⟩, ⟨"b", 1, 2⟩] "wav").1) =
        pySlice (List.range 2001) (msec 0) (msec 2) := by
  rw [c10_ce_run]
  have hm0 : msec 0 = 0 := by norm_num [msec, pyInt]
  have hm20 : msec 20 = 20000 := by norm_num [msec, pyInt]
  have hm2 : msec 2 = 2000 := by norm_num [msec, pyInt]
  rw [hm0, hm20, hm2]
  intro h
  have hlen := congrArg List.length h
  simp only [wavDatas, List.join, List.append_nil, List.length_append, pySlice,
    pySliceIdx, List.length_take, List.length_drop, List.length_range] at hlen
  norm_num at hlen
  omega

end ChunkService
